import Mathlib

/-!
Verification of the folder-tree core of `Foldertree.py`: the path-to-tree
builder `build_hierarchy`, the visibility projection inside
`visualize_tree_plotly` (inner function `add_visible_nodes`, node-info
construction), and the click handler `handle_node_click` over the session
state.  Rendering (plotly figure/layout construction) and the file-upload
shell are external collaborators and are not modelled; every definition
below is a direct translation of the corresponding Python code.
-/

/-! ## Python string primitives

`build_hierarchy` uses `path.split('/')` and `part.strip()`.  We embed
`str.split` for a one-character separator at the character-list level
(`"".split('/') == ['']`, separators at the ends produce empty pieces),
and `not part.strip()` as "every character is whitespace". -/

/-- Character-level split: mirrors Python `str.split(sep)` for a single
character separator.  The empty string yields `[[]]`. -/
def splitChars (sep : Char) : List Char → List (List Char)
  | [] => [[]]
  | c :: cs =>
    match splitChars sep cs with
    | [] => [[]]
    | g :: gs => if c = sep then [] :: g :: gs else (c :: g) :: gs

/-- Embedding of Python `path.split(sep)` (single-character separator). -/
def pySplit (sep : Char) (s : String) : List String :=
  (splitChars sep s.data).map (fun l => String.mk l)

/-- Embedding of Python `not part.strip()`: true iff the string is empty or
all-whitespace. -/
def isBlank (s : String) : Bool := s.data.all (fun c => c.isWhitespace)

/-! ## Data model of the networkx graph built by `build_hierarchy`

Node attributes: every node gets `name`, `level`, `is_expanded`
(lines 99-103); leaf nodes additionally get `size`, `owner`,
`classification`, `created` (lines 106-110), drawn from `np.random` and
`datetime.now()`.  The random draws are modelled as an explicit stream
`rng : Nat → LeafMeta` consumed once per created leaf node, so that
run-to-run nondeterminism of `np.random` is an explicit parameter. -/

/-- The four metadata values `build_hierarchy` draws for a leaf node
(lines 107-110 of the source): one draw of the `np.random`/`datetime`
state, rendered to the strings that end up in the node attributes. -/
structure LeafMeta where
  size : String
  owner : String
  classification : String
  created : String
deriving DecidableEq, Repr

/-- Attribute dictionary of one networkx node (source lines 99-110).
The metadata entries are `Option` because only leaf nodes receive them. -/
structure NodeAttrs where
  name : String
  level : Nat
  is_expanded : Bool
  size : Option String
  owner : Option String
  classification : Option String
  created : Option String
deriving DecidableEq, Repr

/-- The `nx.DiGraph` as `build_hierarchy` uses it: insertion-ordered node
list (id with attribute dict) and insertion-ordered edge list. -/
structure Graph where
  nodes : List (String × NodeAttrs)
  edges : List (String × String)
deriving DecidableEq, Repr

/-- `G.has_node(node_id)` (source line 95). -/
def Graph.hasNode (g : Graph) (i : String) : Bool :=
  g.nodes.any (fun p => p.1 = i)

/-- `G.add_node(node_id, **node_attrs)` (source line 112); networkx keeps
insertion order. -/
def Graph.addNode (g : Graph) (i : String) (a : NodeAttrs) : Graph :=
  Graph.mk (g.nodes ++ [(i, a)]) g.edges

/-- `G.add_edge(current_id, node_id)` (source line 113). -/
def Graph.addEdge (g : Graph) (u v : String) : Graph :=
  Graph.mk g.nodes (g.edges ++ [(u, v)])

/-- Attributes of the root node added at source line 66. -/
def rootAttrs : NodeAttrs :=
  NodeAttrs.mk "Root" 0 true none none none none

/-- Attribute dict for a new non-leaf node (source lines 99-103). -/
def innerAttrs (part : String) (level : Nat) : NodeAttrs :=
  NodeAttrs.mk part level false none none none none

/-- Attribute dict for a new leaf node (source lines 99-110): the shared
fields plus the four generated metadata entries. -/
def leafAttrs (part : String) (level : Nat) (m : LeafMeta) : NodeAttrs :=
  NodeAttrs.mk part level false (some m.size) (some m.owner)
    (some m.classification) (some m.created)

/-- The inner `for i, part in enumerate(parts)` loop of `build_hierarchy`
(source lines 82-115).  Arguments: running part index `i`, remaining
parts, `current_id`, `current_path`, the graph, and the count of leaf
metadata draws made so far (the `np.random` stream position).  Blank
parts are skipped; a fresh `node_id` is `current_path` extended by the
part; an existing node is reused, a new one is added together with the
edge from `current_id`; `is_leaf` is `i == len(parts) - 1`. -/
def insertParts (rng : Nat → LeafMeta) (total : Nat) :
    Nat → List String → String → String → Graph → Nat → Graph × Nat
  | _, [], _, _, g, ctr => (g, ctr)
  | i, part :: rest, currentId, currentPath, g, ctr =>
    if isBlank part then
      insertParts rng total (i + 1) rest currentId currentPath g ctr
    else
      let cp2 := if currentPath = "" then part else currentPath ++ "/" ++ part
      if g.hasNode cp2 then
        insertParts rng total (i + 1) rest cp2 cp2 g ctr
      else
        if i = total - 1 then
          insertParts rng total (i + 1) rest cp2 cp2
            ((g.addNode cp2 (leafAttrs part (i + 1) (rng ctr))).addEdge currentId cp2)
            (ctr + 1)
        else
          insertParts rng total (i + 1) rest cp2 cp2
            ((g.addNode cp2 (innerAttrs part (i + 1))).addEdge currentId cp2) ctr

/-- One iteration of the outer `for path in paths` loop (source
lines 77-115): split the path and run the segment loop starting from the
root with empty `current_path`. -/
def processPath (rng : Nat → LeafMeta) (st : Graph × Nat) (path : String) :
    Graph × Nat :=
  insertParts rng (pySplit '/' path).length 0 (pySplit '/' path) "root" "" st.1 st.2

/-- `build_hierarchy(paths)` (source lines 58-117) for a list of path
strings: start from the graph holding only the `"root"` node and fold the
path loop.  The `st.warning` call for more than 100 paths (line 75) has
no effect on the result and is not modelled. -/
def build_hierarchy (rng : Nat → LeafMeta) (paths : List String) : Graph :=
  (paths.foldl (processPath rng) (Graph.mk [("root", rootAttrs)] [], 0)).1

/-- The sequence of `node_id` values the segment loop produces for a parts
list starting from accumulated path `cp` — the ids of the nodes a path
visits or creates. -/
def pathIds : List String → String → List String
  | [], _ => []
  | part :: rest, cp =>
    if isBlank part then pathIds rest cp
    else
      let cp2 := if cp = "" then part else cp ++ "/" ++ part
      cp2 :: pathIds rest cp2

/-! ## Error behavior of `build_hierarchy`

The whole body runs under `try/except Exception` and returns
`(None, error_msg)` on any exception (source lines 118-120).  With a
non-iterable argument, `len(paths)` raises `TypeError`; with a
non-string element, `path.split('/')` raises `AttributeError`.
We model a Python argument as either a list of objects (each a string or
some non-string object) or a non-iterable value, and the result as
`Except`: `.error` is the `(None, error_msg)` return. -/

/-- A Python object handed to the builder as one element of `paths`:
either a string or some non-string object (whose only relevant behavior
is that `.split` raises `AttributeError`). -/
inductive PyObj where
  | str (s : String) : PyObj
  | nonStr : PyObj
deriving DecidableEq, Repr

/-- Is the object a string? -/
def PyObj.isStr : PyObj → Bool
  | .str _ => true
  | .nonStr => false

/-- Extract the string of a string object. -/
def PyObj.getStr : PyObj → Option String
  | .str s => some s
  | .nonStr => none

/-- The `paths` argument as an arbitrary Python value: a list of objects,
or something not iterable at all. -/
inductive PyInput where
  | list (objs : List PyObj) : PyInput
  | notIterable : PyInput
deriving DecidableEq, Repr

/-- `build_hierarchy` with its `try/except` error channel (source
lines 58-120): a non-iterable argument or a non-string element raises
inside the `try`, and the handler returns the error message instead of a
graph; otherwise the graph is built as above. -/
def build_hierarchy_checked (rng : Nat → LeafMeta) : PyInput → Except String Graph
  | .notIterable =>
      Except.error "Error building hierarchy: object of type is not iterable"
  | .list objs =>
      if objs.all PyObj.isStr then
        Except.ok (build_hierarchy rng (objs.filterMap PyObj.getStr))
      else
        Except.error "Error building hierarchy: object has no attribute split"

/-! ## The rooted tree view used by the projection

`build_hierarchy` produces a rooted tree: every non-root node is created
exactly once, together with its unique incoming edge (proved below as
part of C2).  `visualize_tree_plotly` walks that tree through
`graph.successors`, whose result is exactly the children of a node in
insertion order.  We therefore embed the projection over the rooted-tree
view of the graph: a node id, its attribute dict, and the ordered list
of child subtrees. -/

inductive FTree where
  | node (id : String) (attrs : NodeAttrs) (children : List FTree) : FTree

/-- The id of the tree's root node. -/
def FTree.rootId : FTree → String
  | .node i _ _ => i

/-- The attribute dict of the tree's root node (`graph.nodes[node]`). -/
def FTree.getAttrs : FTree → NodeAttrs
  | .node _ a _ => a

/-- The child subtrees of the tree's root node (`graph.successors(node)`
in insertion order). -/
def FTree.children : FTree → List FTree
  | .node _ _ cs => cs

/-- All node ids of the tree in pre-order. -/
def allIds : FTree → List String
  | .node i _ cs => i :: (cs.attach.map (fun c => allIds c.1)).flatten
decreasing_by
  have := List.sizeOf_lt_of_mem c.2
  simp only [FTree.node.sizeOf_spec]
  omega

/-- All subtrees of the tree in pre-order (the tree itself included). -/
def subtreesOf : FTree → List FTree
  | .node i a cs =>
    FTree.node i a cs :: (cs.attach.map (fun c => subtreesOf c.1)).flatten
decreasing_by
  have := List.sizeOf_lt_of_mem c.2
  simp only [FTree.node.sizeOf_spec]
  omega

/-- The node ids collected by the recursive inner function
`add_visible_nodes(node_id)` of `visualize_tree_plotly` (source
lines 141-148): nothing if the node is collapsed, otherwise each child
followed by the child's own collection, in child order. -/
def addVisibleNodes (collapsed : Finset String) : FTree → List String
  | .node i _ cs =>
    if i ∈ collapsed then []
    else (cs.attach.map (fun c => c.1.rootId :: addVisibleNodes collapsed c.1)).flatten
decreasing_by
  have := List.sizeOf_lt_of_mem c.2
  simp only [FTree.node.sizeOf_spec]
  omega

/-- The edges `add_visible_nodes` adds to `visible_graph` (source
line 147): for each non-collapsed node reached, the edge to each child,
followed by the child's own edges. -/
def addVisibleEdges (collapsed : Finset String) : FTree → List (String × String)
  | .node i _ cs =>
    if i ∈ collapsed then []
    else (cs.attach.map (fun c => (i, c.1.rootId) :: addVisibleEdges collapsed c.1)).flatten
decreasing_by
  have := List.sizeOf_lt_of_mem c.2
  simp only [FTree.node.sizeOf_spec]
  omega

/-- The visible node set of `visualize_tree_plotly`: `visible_nodes`
starts as `{root_id}` (source line 138) and `add_visible_nodes` is run
from the root (lines 151-152). -/
def visibleNodes (collapsed : Finset String) (t : FTree) : List String :=
  t.rootId :: addVisibleNodes collapsed t

/-- The visible edge list (the edges of `visible_graph`). -/
def visibleEdges (collapsed : Finset String) (t : FTree) : List (String × String) :=
  addVisibleEdges collapsed t

/-- One entry of the `node_info` list built at source lines 229-241. -/
structure NodeInfo where
  id : String
  name : String
  level : Nat
  size : String
  owner : String
  classification : String
  created : String
  is_collapsed : Bool
  is_selected : Bool
  has_children : Bool
deriving DecidableEq, Repr

/-- Look up the subtree rooted at a given id (`graph.nodes[node]` and the
node's successors); first match in pre-order. -/
def findSubtree (t : FTree) (i : String) : Option FTree :=
  (subtreesOf t).find? (fun s => s.rootId = i)

/-- The `info` dict built for one visible node (source lines 200-241):
attribute lookups default to `"N/A"`, `is_collapsed` is membership in
`collapsed_nodes`, `is_selected` compares with `selected_node_id`, and
`has_children` is `any(visible_graph.successors(node))` — computed on the
projected graph's edge list. -/
def mkInfo (t : FTree) (collapsed : Finset String) (selected : Option String)
    (edges : List (String × String)) (n : String) : Option NodeInfo :=
  (findSubtree t n).map (fun s =>
    NodeInfo.mk n s.getAttrs.name s.getAttrs.level
      (s.getAttrs.size.getD "N/A") (s.getAttrs.owner.getD "N/A")
      (s.getAttrs.classification.getD "N/A") (s.getAttrs.created.getD "N/A")
      (decide (n ∈ collapsed)) (decide (selected = some n))
      (edges.any (fun e => e.1 = n)))

/-- The `node_info` list over the visible nodes (source lines 195-241).
Every visible id occurs in the tree, so the lookup never fails. -/
def nodeInfos (t : FTree) (collapsed : Finset String) (selected : Option String) :
    List NodeInfo :=
  (visibleNodes collapsed t).filterMap
    (mkInfo t collapsed selected (addVisibleEdges collapsed t))

/-- `visualize_tree_plotly(graph, collapsed_nodes, selected_node_id)`
(source lines 123-276), restricted to its observable data output: the
`node_info` list, the visible node ids (`node_ids`), and the visible edge
list, with the `try/except` error channel.  For a rooted tree the
in-degree-0 check at lines 133-135 always finds the root, a layout
failure is caught internally with a fallback (lines 161-167), and no
other modelled operation raises, so the embedded projector always
returns `Except.ok`. -/
def visualize_tree_plotly (t : FTree) (collapsed : Finset String)
    (selected : Option String) :
    Except String (List NodeInfo × List String × List (String × String)) :=
  Except.ok
    (nodeInfos t collapsed selected, visibleNodes collapsed t,
      visibleEdges collapsed t)

/-! ## Session state and the click handler -/

/-- The slice of `st.session_state` that `handle_node_click` and the
initial-collapse loop touch or could touch: the collapsed-id set, the
selected node id, and the built graph. -/
structure SessionState where
  collapsed_nodes : Finset String
  selected_node_id : Option String
  graph : Graph
deriving DecidableEq

/-- `handle_node_click(node_id)` (source lines 279-292): toggle
membership of `node_id` in `collapsed_nodes`, then set
`selected_node_id` to `node_id`.  Nothing else is touched, and there is
no special case for the root. -/
def handle_node_click (st : SessionState) (nodeId : String) : SessionState :=
  SessionState.mk
    (if nodeId ∈ st.collapsed_nodes then st.collapsed_nodes.erase nodeId
     else insert nodeId st.collapsed_nodes)
    (some nodeId)
    st.graph

/-- `[n for n, d in graph.in_degree() if d == 0]` (source lines 133 and
397): the ids of nodes with no incoming edge. -/
def Graph.roots (g : Graph) : List String :=
  (g.nodes.map Prod.fst).filter (fun n => !(g.edges.any (fun e => e.2 = n)))

/-- The initial collapse loop (source lines 396-401): every node that is
not a root is added to the (pre-existing) collapsed set. -/
def initialCollapsed (g : Graph) (c0 : Finset String) : Finset String :=
  g.nodes.foldl (fun acc p => if p.1 ∈ g.roots then acc else insert p.1 acc) c0

/-! ## Derived observations used by the statements -/

/-- The random-independent part of one node's attribute dict: everything
except the four generated metadata entries. -/
structure NodeSkel where
  name : String
  level : Nat
  is_expanded : Bool
deriving DecidableEq, Repr

/-- Strip a node's attribute dict to its random-independent part. -/
def NodeAttrs.skel (a : NodeAttrs) : NodeSkel :=
  NodeSkel.mk a.name a.level a.is_expanded

/-- The random-independent skeleton of a built graph: node ids with
stripped attributes, in order, and the full edge list, in order. -/
def Graph.skel (g : Graph) : List (String × NodeSkel) × List (String × String) :=
  (g.nodes.map (fun p => (p.1, p.2.skel)), g.edges)

/-- The `name` attribute of the node with the given id
(`graph.nodes[i]['name']`), if the node exists. -/
def lookupName (g : Graph) (i : String) : Option String :=
  (g.nodes.find? (fun p => p.1 = i)).map (fun p => p.2.name)

/-- Ids are pairwise distinct in the node list. -/
def NodupIds (g : Graph) : Prop := (g.nodes.map (fun p => p.1)).Nodup

/-- Shape of every edge the builder creates: the target node exists, its
name is the last segment, and the target id is that name for children of
the artificial root, or `parent ++ "/" ++ name` otherwise. -/
def EdgeShape (g : Graph) : Prop :=
  ∀ e ∈ g.edges, ∃ nm, lookupName g e.2 = some nm ∧
    ((e.1 = "root" ∧ e.2 = nm) ∨ (e.1 ≠ "root" ∧ e.2 = e.1 ++ "/" ++ nm))

/-! ## Concrete fixtures for witnesses and counterexamples -/

/-- One possible stream of metadata draws (all values are ones
`np.random`/`datetime` can produce). -/
def rngA : Nat → LeafMeta := fun _ => LeafMeta.mk "1 KB" "User1" "Public" "2025-01-01"

/-- A second possible stream of metadata draws, differing from `rngA`. -/
def rngB : Nat → LeafMeta := fun _ => LeafMeta.mk "2 KB" "User2" "Internal" "2025-02-02"

/-- A small built graph: `build_hierarchy` on the single path `"a"`. -/
def gA : Graph := build_hierarchy rngA ["a"]

/-- The rooted-tree view of `build_hierarchy rngA ["A/B", "C"]`:
root with children `A` (with child `A/B`) and `C`. -/
def t0 : FTree :=
  FTree.node "root" rootAttrs
    [FTree.node "A" (innerAttrs "A" 1)
      [FTree.node "A/B" (leafAttrs "B" 2 (rngA 0)) []],
     FTree.node "C" (leafAttrs "C" 1 (rngA 1)) []]

/-- A session state right after building `gA`, before any click. -/
def st0 : SessionState := SessionState.mk ∅ none gA

/-- The session state after building `gA` and running the initial
collapse loop (source lines 396-401). -/
def stInit : SessionState := SessionState.mk (initialCollapsed gA ∅) none gA

/-! ## Basic lemmas: unfolding the recursive tree functions -/

/-- Recursion principle for `FTree` that recurses through the child list. -/
theorem FTree.strongInd {P : FTree → Prop}
    (h : ∀ i a cs, (∀ c, c ∈ cs → P c) → P (.node i a cs)) : ∀ t, P t
  | .node i a cs => h i a cs (fun c hc => FTree.strongInd h c)
decreasing_by
  have := List.sizeOf_lt_of_mem hc
  simp only [FTree.node.sizeOf_spec]
  omega

@[simp]
theorem allIds_eq (i : String) (a : NodeAttrs) (cs : List FTree) :
    allIds (.node i a cs) = i :: (cs.map allIds).flatten := by
  rw [allIds]
  congr 1
  rw [List.map_attach]
  simp

@[simp]
theorem subtreesOf_eq (i : String) (a : NodeAttrs) (cs : List FTree) :
    subtreesOf (.node i a cs) = FTree.node i a cs :: (cs.map subtreesOf).flatten := by
  rw [subtreesOf]
  congr 1
  rw [List.map_attach]
  simp

@[simp]
theorem addVisibleNodes_eq (coll : Finset String) (i : String) (a : NodeAttrs)
    (cs : List FTree) :
    addVisibleNodes coll (.node i a cs) =
      if i ∈ coll then []
      else (cs.map (fun c => c.rootId :: addVisibleNodes coll c)).flatten := by
  rw [addVisibleNodes]
  split
  · rfl
  · congr 1
    rw [List.map_attach]
    simp

@[simp]
theorem addVisibleEdges_eq (coll : Finset String) (i : String) (a : NodeAttrs)
    (cs : List FTree) :
    addVisibleEdges coll (.node i a cs) =
      if i ∈ coll then []
      else (cs.map (fun c => (i, c.rootId) :: addVisibleEdges coll c)).flatten := by
  rw [addVisibleEdges]
  split
  · rfl
  · congr 1
    rw [List.map_attach]
    simp

/-! ## String helper lemmas -/

theorem ne_empty_of_not_blank (s : String) (h : isBlank s = false) : s ≠ "" := by
  intro hc
  subst hc
  simp [isBlank] at h

theorem append_slash_ne_empty (cp part : String) :
    cp ++ "/" ++ part ≠ "" := by
  intro hc
  have hd := congrArg String.data hc
  simp [String.data_append] at hd

/-! ## Claims about `handle_node_click` (C6, C10) and the root (C7) -/

/-- Claim C6 counterexample: clicking the same node twice does not return
the session state to its original value, because the second click also
sets the clicked node as the selected node.  Here the initial state has
no selection, and after two clicks on `"a"` the selection is `some "a"`. -/
theorem claim_C6_cex :
    handle_node_click (handle_node_click st0 "a") "a" ≠ st0 := by
  decide

/-- Claim C6 (amended): clicking the same node twice restores the
collapsed set and the graph exactly, but leaves the clicked node
selected: the composite equals the original state with
`selected_node_id` set to the clicked id. -/
theorem claim_C6 (st : SessionState) (n : String) :
    handle_node_click (handle_node_click st n) n =
      SessionState.mk st.collapsed_nodes (some n) st.graph := by
  unfold handle_node_click
  by_cases h : n ∈ st.collapsed_nodes
  · simp [h, Finset.insert_erase h]
  · simp [h, Finset.erase_insert h]

/-- Claim C10: `handle_node_click` toggles exactly the clicked id's
collapse membership, sets the clicked node as the selected node, leaves
every other collapse entry unchanged, and leaves the tree data
unchanged. -/
theorem claim_C10 (st : SessionState) (n : String) :
    (handle_node_click st n).graph = st.graph
    ∧ (handle_node_click st n).selected_node_id = some n
    ∧ ((n ∈ (handle_node_click st n).collapsed_nodes) ↔ n ∉ st.collapsed_nodes)
    ∧ ∀ m, m ≠ n →
        ((m ∈ (handle_node_click st n).collapsed_nodes) ↔ m ∈ st.collapsed_nodes) := by
  unfold handle_node_click
  by_cases h : n ∈ st.collapsed_nodes
  · refine ⟨rfl, rfl, by simp [h], ?_⟩
    intro m hm
    simp [h, Finset.mem_erase, hm]
  · refine ⟨rfl, rfl, by simp [h], ?_⟩
    intro m hm
    simp [h, Finset.mem_insert, hm]

/-- Claim C10 witness: at the concrete post-build state, clicking `"a"`
leaves the collapse entry of the unrelated id `"b"` unchanged. -/
theorem claim_C10_w :
    ("b" ∈ (handle_node_click st0 "a").collapsed_nodes) ↔ "b" ∈ st0.collapsed_nodes :=
  (claim_C10 st0 "a").2.2.2 "b" (by decide)

/-- Helper for C7: the initial collapse loop never inserts an id that is
in the given root list. -/
theorem initialCollapsed_aux (rs : List String) (r : String) (hr : r ∈ rs) :
    ∀ (l : List (String × NodeAttrs)) (acc : Finset String), r ∉ acc →
      r ∉ l.foldl (fun acc p => if p.1 ∈ rs then acc else insert p.1 acc) acc := by
  intro l
  induction l with
  | nil => intro acc hacc; exact hacc
  | cons p l ih =>
    intro acc hacc
    simp only [List.foldl_cons]
    apply ih
    by_cases hp : p.1 ∈ rs
    · simpa [hp] using hacc
    · simp only [hp, if_false, Finset.mem_insert]
      rintro (h1 | h2)
      · exact hp (h1 ▸ hr)
      · exact hacc h2

/-- Claim C7 counterexample: starting from the state produced by the
build and the initial collapse loop, a single click on the root id puts
`"root"` into the collapsed set, and the click is not a no-op. -/
theorem claim_C7_cex :
    "root" ∈ (handle_node_click stInit "root").collapsed_nodes
    ∧ handle_node_click stInit "root" ≠ stInit := by
  decide

/-- Claim C7 (amended): the initial collapse loop never puts a root id
into the collapsed set, and the root node stays visible in every
projection; but `handle_node_click` has no root guard, so a click on the
root does add it to the collapsed set (see the counterexample). -/
theorem claim_C7 :
    (∀ (g : Graph) (c0 : Finset String) (r : String),
      r ∈ g.roots → r ∉ c0 → r ∉ initialCollapsed g c0)
    ∧ ∀ (t : FTree) (coll : Finset String), t.rootId ∈ visibleNodes coll t := by
  constructor
  · intro g c0 r hr hc0
    exact initialCollapsed_aux g.roots r hr g.nodes c0 hc0
  · intro t coll
    exact List.mem_cons_self _ _

/-- Claim C7 witness: concretely, `"root"` is a root of the built graph
`gA`, is not put into the collapsed set by the initial collapse loop, and
is visible in the projection of `t0` even when collapsed. -/
theorem claim_C7_w :
    "root" ∉ initialCollapsed gA ∅ ∧ "root" ∈ visibleNodes {"root"} t0 :=
  ⟨claim_C7.1 gA ∅ "root" (by decide) (by decide), claim_C7.2 t0 {"root"}⟩

/-- Claim C8: the builder signals an error (the `(None, error_msg)`
return from the `except` handler) exactly when the argument is not
iterable or an element of it is not a string; the empty list is not a
failure and yields the graph holding only the root, with no edges (so
zero children). -/
theorem claim_C8 (rng : Nat → LeafMeta) (input : PyInput) :
    ((∃ msg, build_hierarchy_checked rng input = Except.error msg) ↔
      (input = PyInput.notIterable
        ∨ ∃ objs, input = PyInput.list objs ∧ ∃ o ∈ objs, o.isStr = false))
    ∧ build_hierarchy_checked rng (PyInput.list []) =
        Except.ok (Graph.mk [("root", rootAttrs)] []) := by
  constructor
  · cases input with
    | notIterable => simp [build_hierarchy_checked]
    | list objs =>
      by_cases h : objs.all PyObj.isStr
      · simp only [build_hierarchy_checked, h, if_true]
        constructor
        · rintro ⟨msg, hmsg⟩
          exact absurd hmsg (by simp)
        · rintro (h1 | ⟨objs2, h2, o, ho, hno⟩)
          · exact absurd h1 (by simp)
          · cases h2
            exact absurd (List.all_eq_true.mp h o ho) (by simp [hno])
      · simp only [build_hierarchy_checked, h, if_false]
        constructor
        · intro _
          right
          refine ⟨objs, rfl, ?_⟩
          rcases List.all_eq_false.mp (Bool.eq_false_iff.mpr h) with ⟨o, ho, hno⟩
          exact ⟨o, ho, by simpa using hno⟩
        · intro _
          exact ⟨"Error building hierarchy: object has no attribute split", rfl⟩
  · rfl

/-! ## Determinism of the build skeleton (C3, C9)

The only run-to-run variation in `build_hierarchy` is the `np.random` /
`datetime.now()` draw stream; everything except the four leaf metadata
fields is a pure function of the input paths. -/

theorem hasNode_of_skel (g1 g2 : Graph) (h : g1.skel = g2.skel) (i : String) :
    g1.hasNode i = g2.hasNode i := by
  have hids : g1.nodes.map Prod.fst = g2.nodes.map Prod.fst := by
    have h1 := congrArg (fun q => q.1.map Prod.fst) h
    simpa [Graph.skel, Function.comp] using h1
  have e : ∀ (l : List (String × NodeAttrs)),
      (l.any fun p => decide (p.1 = i)) = ((l.map Prod.fst).any fun x => decide (x = i)) := by
    intro l
    induction l with
    | nil => rfl
    | cons p l ih => simp only [List.any_cons, List.map_cons, ih]
  simp only [Graph.hasNode, e, hids]

theorem skel_addNode (g : Graph) (i : String) (a : NodeAttrs) :
    (g.addNode i a).skel = (g.skel.1 ++ [(i, a.skel)], g.skel.2) := by
  simp [Graph.addNode, Graph.skel]

theorem skel_addEdge (g : Graph) (u v : String) :
    (g.addEdge u v).skel = (g.skel.1, g.skel.2 ++ [(u, v)]) := by
  simp [Graph.addEdge, Graph.skel]

theorem skel_leafAttrs (part : String) (lvl : Nat) (m : LeafMeta) :
    (leafAttrs part lvl m).skel = NodeSkel.mk part lvl false := by
  simp [leafAttrs, NodeAttrs.skel]

theorem skel_innerAttrs (part : String) (lvl : Nat) :
    (innerAttrs part lvl).skel = NodeSkel.mk part lvl false := by
  simp [innerAttrs, NodeAttrs.skel]

theorem insertParts_skel (rng1 rng2 : Nat → LeafMeta) (total : Nat) :
    ∀ (ps : List String) (i : Nat) (cid cp : String) (g1 g2 : Graph) (c1 c2 : Nat),
      g1.skel = g2.skel →
      (insertParts rng1 total i ps cid cp g1 c1).1.skel =
        (insertParts rng2 total i ps cid cp g2 c2).1.skel := by
  intro ps
  induction ps with
  | nil => intro i cid cp g1 g2 c1 c2 h; simpa [insertParts] using h
  | cons part rest ih =>
    intro i cid cp g1 g2 c1 c2 h
    by_cases hb : isBlank part
    · simp only [insertParts, hb, if_true]
      exact ih (i + 1) cid cp g1 g2 c1 c2 h
    · simp only [insertParts, hb, if_false]
      by_cases hn : g1.hasNode (if cp = "" then part else cp ++ "/" ++ part)
      · have hn2 := (hasNode_of_skel g1 g2 h (if cp = "" then part else cp ++ "/" ++ part)).symm.trans hn
        simp only [hn, hn2, if_true]
        exact ih (i + 1) _ _ g1 g2 c1 c2 h
      · have hn2 : g2.hasNode (if cp = "" then part else cp ++ "/" ++ part) = false := by
          rw [← hasNode_of_skel g1 g2 h]
          exact Bool.eq_false_iff.mpr hn
        simp only [hn, hn2, Bool.false_eq_true, if_false]
        by_cases hl : i = total - 1
        · simp only [hl, if_true]
          apply ih
          rw [skel_addEdge, skel_addEdge, skel_addNode, skel_addNode,
            skel_leafAttrs, skel_leafAttrs, h]
        · simp only [hl, if_false]
          apply ih
          rw [skel_addEdge, skel_addEdge, skel_addNode, skel_addNode,
            skel_innerAttrs, h]

theorem build_skel (rng1 rng2 : Nat → LeafMeta) (paths : List String) :
    (build_hierarchy rng1 paths).skel = (build_hierarchy rng2 paths).skel := by
  suffices hgen : ∀ (ps : List String) (s1 s2 : Graph × Nat), s1.1.skel = s2.1.skel →
      (ps.foldl (processPath rng1) s1).1.skel = (ps.foldl (processPath rng2) s2).1.skel by
    exact hgen paths _ _ rfl
  intro ps
  induction ps with
  | nil => intro s1 s2 h; simpa using h
  | cons p rest ih =>
    intro s1 s2 h
    simp only [List.foldl_cons]
    exact ih _ _ (insertParts_skel rng1 rng2 _ _ _ _ _ _ _ _ _ h)

/-- Component-wise consequence of skeleton equality of node lists. -/
theorem skelList_proj (l1 l2 : List (String × NodeAttrs))
    (h : l1.map (fun p => (p.1, p.2.skel)) = l2.map (fun p => (p.1, p.2.skel))) :
    l1.map (fun p => p.1) = l2.map (fun p => p.1)
    ∧ l1.map (fun p => p.2.name) = l2.map (fun p => p.2.name)
    ∧ l1.map (fun p => p.2.level) = l2.map (fun p => p.2.level) := by
  induction l1 generalizing l2 with
  | nil =>
    cases l2 with
    | nil => simp
    | cons q m => simp at h
  | cons p l ih =>
    cases l2 with
    | nil => simp at h
    | cons q m =>
      simp only [List.map_cons, List.cons.injEq] at h ⊢
      obtain ⟨hpq, hrest⟩ := h
      injection hpq with hid hskel
      have hname : p.2.name = q.2.name := congrArg NodeSkel.name hskel
      have hlevel : p.2.level = q.2.level := congrArg NodeSkel.level hskel
      obtain ⟨h1, h2, h3⟩ := ih m hrest
      exact ⟨⟨hid, h1⟩, ⟨hname, h2⟩, ⟨hlevel, h3⟩⟩

/-- Claim C3: `build_hierarchy` is deterministic in everything except the
random leaf metadata: for the same input paths, any two runs (any two
draw streams) agree on the node id list, the node names, the node levels
(depths), and the full edge list — hence on tree shape and child
ordering. -/
theorem claim_C3 (paths : List String) (rng1 rng2 : Nat → LeafMeta) :
    (build_hierarchy rng1 paths).nodes.map (fun p => p.1) =
      (build_hierarchy rng2 paths).nodes.map (fun p => p.1)
    ∧ (build_hierarchy rng1 paths).nodes.map (fun p => p.2.name) =
      (build_hierarchy rng2 paths).nodes.map (fun p => p.2.name)
    ∧ (build_hierarchy rng1 paths).nodes.map (fun p => p.2.level) =
      (build_hierarchy rng2 paths).nodes.map (fun p => p.2.level)
    ∧ (build_hierarchy rng1 paths).edges = (build_hierarchy rng2 paths).edges := by
  have h := build_skel rng1 rng2 paths
  have h1 := congrArg Prod.fst h
  have h2 := congrArg Prod.snd h
  simp only [Graph.skel] at h1 h2
  obtain ⟨ha, hb, hc⟩ := skelList_proj _ _ h1
  exact ⟨ha, hb, hc, h2⟩

/-- Claim C9 counterexample: two runs of `build_hierarchy` on the same
input `["a"]` with different (both realizable) random draws produce
different trees — the leaf metadata differs, so the build is not
idempotent in every observable respect. -/
theorem claim_C9_cex : build_hierarchy rngA ["a"] ≠ build_hierarchy rngB ["a"] := by
  decide

/-- Claim C9 (amended): rebuilding from the same input sequence yields a
tree identical in node ids, names, levels, expansion flags, and edges
(in order); only the four leaf metadata fields, drawn from `np.random`
and `datetime.now()`, may differ between runs. -/
theorem claim_C9 (rng1 rng2 : Nat → LeafMeta) (paths : List String) :
    (build_hierarchy rng1 paths).skel = (build_hierarchy rng2 paths).skel :=
  build_skel rng1 rng2 paths

/-! ## Build graph lemmas: node lookup and reuse (C2) -/

theorem hasNode_iff_mem (g : Graph) (i : String) :
    g.hasNode i = true ↔ i ∈ g.nodes.map (fun p => p.1) := by
  simp [Graph.hasNode, List.any_eq_true, List.mem_map]

theorem hasNode_addNode (g : Graph) (i j : String) (a : NodeAttrs) :
    (g.addNode i a).hasNode j = (g.hasNode j || (i = j)) := by
  simp [Graph.hasNode, Graph.addNode, List.any_append]

theorem hasNode_addEdge (g : Graph) (u v j : String) :
    (g.addEdge u v).hasNode j = g.hasNode j := rfl

theorem lookupName_addEdge (g : Graph) (u v : String) (j : String) :
    lookupName (g.addEdge u v) j = lookupName g j := rfl

theorem lookupName_addNode_preserve (g : Graph) (i : String) (a : NodeAttrs)
    (j : String) (nm : String) (h : lookupName g j = some nm) :
    lookupName (g.addNode i a) j = some nm := by
  simp only [lookupName, Graph.addNode, List.find?_append]
  simp only [lookupName] at h
  cases hf : g.nodes.find? (fun p => p.1 = j) with
  | none => rw [hf] at h; simp at h
  | some p => rw [hf] at h; simp [Option.or] at h ⊢; exact h

theorem lookupName_addNode_self (g : Graph) (i : String) (a : NodeAttrs)
    (h : g.hasNode i = false) :
    lookupName (g.addNode i a) i = some a.name := by
  have hnone : g.nodes.find? (fun p => p.1 = i) = none := by
    rw [List.find?_eq_none]
    intro p hp
    simp only [decide_eq_true_eq]
    intro he
    have hh : g.hasNode i = true :=
      (hasNode_iff_mem g i).mpr (List.mem_map.mpr ⟨p, hp, he⟩)
    rw [hh] at h
    exact Bool.noConfusion h
  simp [lookupName, Graph.addNode, List.find?_append, hnone, Option.or]

theorem insertParts_hasNode_mono (rng : Nat → LeafMeta) (total : Nat) :
    ∀ (ps : List String) (i : Nat) (cid cp : String) (g : Graph) (c : Nat) (x : String),
      g.hasNode x = true → (insertParts rng total i ps cid cp g c).1.hasNode x = true := by
  intro ps
  induction ps with
  | nil => intro i cid cp g c x h; simpa [insertParts] using h
  | cons part rest ih =>
    intro i cid cp g c x h
    by_cases hb : isBlank part
    · simp only [insertParts, hb, if_true]
      exact ih _ _ _ _ _ _ h
    · simp only [insertParts, hb, if_false]
      by_cases hn : g.hasNode (if cp = "" then part else cp ++ "/" ++ part)
      · simp only [hn, if_true]
        exact ih _ _ _ _ _ _ h
      · simp only [hn, Bool.false_eq_true, if_false]
        by_cases hl : i = total - 1
        · simp only [hl, if_true]
          apply ih
          rw [hasNode_addEdge, hasNode_addNode, h, Bool.true_or]
        · simp only [hl, if_false]
          apply ih
          rw [hasNode_addEdge, hasNode_addNode, h, Bool.true_or]

theorem insertParts_pathIds_hasNode (rng : Nat → LeafMeta) (total : Nat) :
    ∀ (ps : List String) (i : Nat) (cid cp : String) (g : Graph) (c : Nat) (x : String),
      x ∈ pathIds ps cp → (insertParts rng total i ps cid cp g c).1.hasNode x = true := by
  intro ps
  induction ps with
  | nil => intro i cid cp g c x h; simp [pathIds] at h
  | cons part rest ih =>
    intro i cid cp g c x h
    by_cases hb : isBlank part
    · simp only [pathIds, hb, if_true] at h
      simp only [insertParts, hb, if_true]
      exact ih _ _ _ _ _ _ h
    · simp only [pathIds, hb, Bool.false_eq_true, if_false, List.mem_cons] at h
      simp only [insertParts, hb, Bool.false_eq_true, if_false]
      by_cases hn : g.hasNode (if cp = "" then part else cp ++ "/" ++ part)
      · simp only [hn, if_true]
        rcases h with h | h
        · subst h
          exact insertParts_hasNode_mono rng total _ _ _ _ _ _ _ hn
        · exact ih _ _ _ _ _ _ h
      · simp only [hn, Bool.false_eq_true, if_false]
        have hnew : ∀ (a : NodeAttrs),
            ((g.addNode (if cp = "" then part else cp ++ "/" ++ part) a).addEdge cid
              (if cp = "" then part else cp ++ "/" ++ part)).hasNode
              (if cp = "" then part else cp ++ "/" ++ part) = true := by
          intro a
          rw [hasNode_addEdge, hasNode_addNode]
          simp
        by_cases hl : i = total - 1
        · simp only [hl, if_true]
          rcases h with h | h
          · subst h
            exact insertParts_hasNode_mono rng total _ _ _ _ _ _ _ (hnew _)
          · exact ih _ _ _ _ _ _ h
        · simp only [hl, if_false]
          rcases h with h | h
          · subst h
            exact insertParts_hasNode_mono rng total _ _ _ _ _ _ _ (hnew _)
          · exact ih _ _ _ _ _ _ h

theorem insertParts_noop (rng : Nat → LeafMeta) (total : Nat) :
    ∀ (ps : List String) (i : Nat) (cid cp : String) (g : Graph) (c : Nat),
      (∀ x ∈ pathIds ps cp, g.hasNode x = true) →
      insertParts rng total i ps cid cp g c = (g, c) := by
  intro ps
  induction ps with
  | nil => intro i cid cp g c _; rfl
  | cons part rest ih =>
    intro i cid cp g c h
    by_cases hb : isBlank part
    · simp only [insertParts, hb, if_true]
      apply ih
      intro x hx
      apply h
      simp only [pathIds, hb, if_true]
      exact hx
    · have hmem : ∀ x ∈ pathIds (part :: rest) cp, x = (if cp = "" then part else cp ++ "/" ++ part) ∨ x ∈ pathIds rest (if cp = "" then part else cp ++ "/" ++ part) := by
        intro x hx
        simpa [pathIds, hb] using hx
      have hn : g.hasNode (if cp = "" then part else cp ++ "/" ++ part) = true := by
        apply h
        simp [pathIds, hb]
      simp only [insertParts, hb, if_false, hn, if_true]
      apply ih
      intro x hx
      apply h
      simp [pathIds, hb]
      right
      exact hx

theorem foldl_hasNode_mono (rng : Nat → LeafMeta) :
    ∀ (ps : List String) (s : Graph × Nat) (x : String),
      s.1.hasNode x = true → ((ps.foldl (processPath rng) s).1.hasNode x) = true := by
  intro ps
  induction ps with
  | nil => intro s x h; simpa using h
  | cons p rest ih =>
    intro s x h
    simp only [List.foldl_cons]
    exact ih _ _ (insertParts_hasNode_mono rng _ _ _ _ _ _ _ _ h)

theorem build_reinsert (rng : Nat → LeafMeta) (paths : List String) (p : String)
    (hp : p ∈ paths) :
    build_hierarchy rng (paths ++ [p]) = build_hierarchy rng paths := by
  have hpres : ∀ x ∈ pathIds (pySplit '/' p) "",
      (paths.foldl (processPath rng) (Graph.mk [("root", rootAttrs)] [], 0)).1.hasNode x = true := by
    obtain ⟨l1, l2, rfl⟩ := List.append_of_mem hp
    intro x hx
    rw [List.foldl_append]
    simp only [List.foldl_cons]
    apply foldl_hasNode_mono
    exact insertParts_pathIds_hasNode rng _ _ _ _ _ _ _ _ hx
  have hnoop : processPath rng
      (paths.foldl (processPath rng) (Graph.mk [("root", rootAttrs)] [], 0)) p
      = paths.foldl (processPath rng) (Graph.mk [("root", rootAttrs)] [], 0) := by
    show insertParts rng (pySplit '/' p).length 0 (pySplit '/' p) "root" ""
        (paths.foldl (processPath rng) (Graph.mk [("root", rootAttrs)] [], 0)).1
        (paths.foldl (processPath rng) (Graph.mk [("root", rootAttrs)] [], 0)).2
      = paths.foldl (processPath rng) (Graph.mk [("root", rootAttrs)] [], 0)
    rw [insertParts_noop rng (pySplit '/' p).length (pySplit '/' p) 0 "root" "" _ _ hpres]
  show ((paths ++ [p]).foldl (processPath rng) (Graph.mk [("root", rootAttrs)] [], 0)).1
      = (paths.foldl (processPath rng) (Graph.mk [("root", rootAttrs)] [], 0)).1
  rw [List.foldl_append, List.foldl_cons, List.foldl_nil, hnoop]

theorem insertParts_inv (rng : Nat → LeafMeta) (total : Nat) :
    ∀ (ps : List String) (i : Nat) (cid cp : String) (g : Graph) (c : Nat),
      NodupIds g → EdgeShape g →
      "root" ∉ pathIds ps cp →
      cid = (if cp = "" then "root" else cp) →
      (cp = "" ∨ cp ≠ "root") →
      NodupIds (insertParts rng total i ps cid cp g c).1
      ∧ EdgeShape (insertParts rng total i ps cid cp g c).1 := by
  intro ps
  induction ps with
  | nil =>
    intro i cid cp g c hnd hes _ _ _
    exact ⟨hnd, hes⟩
  | cons part rest ih =>
    intro i cid cp g c hnd hes hroot hcid hcp
    by_cases hb : isBlank part
    · simp only [insertParts, hb, if_true]
      apply ih _ _ _ _ _ hnd hes _ hcid hcp
      simpa [pathIds, hb] using hroot
    · have hb2 : isBlank part = false := by simpa using hb
      have hroot' : ¬("root" = (if cp = "" then part else cp ++ "/" ++ part)
          ∨ "root" ∈ pathIds rest (if cp = "" then part else cp ++ "/" ++ part)) := by
        simpa [pathIds, hb2] using hroot
      push_neg at hroot'
      have hne2 : (if cp = "" then part else cp ++ "/" ++ part) ≠ "root" :=
        fun hc => hroot'.1 hc.symm
      have hroot2 : "root" ∉ pathIds rest (if cp = "" then part else cp ++ "/" ++ part) :=
        hroot'.2
      have hcp2ne : (if cp = "" then part else cp ++ "/" ++ part) ≠ "" := by
        by_cases hcpe : cp = ""
        · simpa [hcpe] using ne_empty_of_not_blank part hb2
        · simpa [hcpe] using append_slash_ne_empty cp part
      have hcid2 : (if cp = "" then part else cp ++ "/" ++ part) =
          (if (if cp = "" then part else cp ++ "/" ++ part) = "" then "root"
           else (if cp = "" then part else cp ++ "/" ++ part)) := by
        simp [hcp2ne]
      by_cases hn : g.hasNode (if cp = "" then part else cp ++ "/" ++ part)
      · simp only [insertParts, hb, Bool.false_eq_true, if_false, hn, if_true]
        exact ih _ _ _ _ _ hnd hes hroot2 hcid2 (Or.inr hne2)
      · have hn2 : g.hasNode (if cp = "" then part else cp ++ "/" ++ part) = false := by
          simpa using hn
        have hnotmem : (if cp = "" then part else cp ++ "/" ++ part)
            ∉ g.nodes.map (fun p => p.1) := by
          intro hmem
          exact hn ((hasNode_iff_mem g _).mpr hmem)
        have hmain : ∀ (a : NodeAttrs), a.name = part →
            NodupIds ((g.addNode (if cp = "" then part else cp ++ "/" ++ part) a).addEdge
              cid (if cp = "" then part else cp ++ "/" ++ part))
            ∧ EdgeShape ((g.addNode (if cp = "" then part else cp ++ "/" ++ part) a).addEdge
              cid (if cp = "" then part else cp ++ "/" ++ part)) := by
          intro a hname
          constructor
          · simp only [NodupIds, Graph.addNode, Graph.addEdge, List.map_append,
              List.map_cons, List.map_nil]
            rw [List.nodup_append]
            exact ⟨hnd, List.nodup_singleton _,
              by intro x hx hx2; simp at hx2; exact hnotmem (hx2 ▸ hx)⟩
          · intro e he
            simp only [Graph.addNode, Graph.addEdge, List.mem_append,
              List.mem_singleton] at he
            rcases he with he | he
            · obtain ⟨nm, hlook, hdisj⟩ := hes e he
              refine ⟨nm, ?_, hdisj⟩
              rw [lookupName_addEdge]
              exact lookupName_addNode_preserve g _ a e.2 nm hlook
            · subst he
              refine ⟨part, ?_, ?_⟩
              · rw [lookupName_addEdge]
                have hself := lookupName_addNode_self g
                  (if cp = "" then part else cp ++ "/" ++ part) a hn2
                rw [hname] at hself
                exact hself
              · by_cases hcpe : cp = ""
                · left
                  constructor
                  · rw [hcid, hcpe]
                    simp
                  · simp [hcpe]
                · right
                  have hcpr : cp ≠ "root" := by
                    rcases hcp with h1 | h1
                    · exact absurd h1 hcpe
                    · exact h1
                  constructor
                  · rw [hcid]
                    simp only [hcpe, if_false]
                    exact hcpr
                  · rw [hcid]
                    simp [hcpe]
        by_cases hl : i = total - 1
        · simp only [insertParts, hb, Bool.false_eq_true, if_false, hn]
          rw [if_pos hl]
          obtain ⟨ha, hb3⟩ := hmain (leafAttrs part (i + 1) (rng c)) rfl
          exact ih _ _ _ _ _ ha hb3 hroot2 hcid2 (Or.inr hne2)
        · simp only [insertParts, hb, Bool.false_eq_true, if_false, hn]
          rw [if_neg hl]
          obtain ⟨ha, hb3⟩ := hmain (innerAttrs part (i + 1)) rfl
          exact ih _ _ _ _ _ ha hb3 hroot2 hcid2 (Or.inr hne2)

theorem build_inv (rng : Nat → LeafMeta) (paths : List String)
    (h : ∀ p ∈ paths, "root" ∉ pathIds (pySplit '/' p) "") :
    NodupIds (build_hierarchy rng paths) ∧ EdgeShape (build_hierarchy rng paths) := by
  suffices hgen : ∀ (ps : List String), (∀ p ∈ ps, "root" ∉ pathIds (pySplit '/' p) "") →
      ∀ (s : Graph × Nat), NodupIds s.1 → EdgeShape s.1 →
      NodupIds (ps.foldl (processPath rng) s).1 ∧ EdgeShape (ps.foldl (processPath rng) s).1 by
    apply hgen paths h
    · simp [NodupIds]
    · intro e he
      simp [Graph.edges] at he
  intro ps
  induction ps with
  | nil => intro _ s h1 h2; exact ⟨h1, h2⟩
  | cons p rest ih =>
    intro hall s h1 h2
    simp only [List.foldl_cons]
    have hstep := insertParts_inv rng (pySplit '/' p).length (pySplit '/' p) 0 "root" ""
      s.1 s.2 h1 h2 (hall p (List.mem_cons_self _ _)) (by simp) (Or.inl rfl)
    exact ih (fun q hq => hall q (List.mem_cons_of_mem _ hq)) _ hstep.1 hstep.2

/-- Claim C2 counterexample: on input `["x", "root/x"]` the builder gives
the root two distinct children, `"x"` and `"root/x"`, that share the name
`"x"`: a path whose first segment is literally `root` collides with the
artificial root id, so its second segment is attached to the root as a
duplicate-named sibling instead of a shared subtree. -/
theorem claim_C2_cex :
    ("root", "x") ∈ (build_hierarchy rngA ["x", "root/x"]).edges
    ∧ ("root", "root/x") ∈ (build_hierarchy rngA ["x", "root/x"]).edges
    ∧ lookupName (build_hierarchy rngA ["x", "root/x"]) "x" = some "x"
    ∧ lookupName (build_hierarchy rngA ["x", "root/x"]) "root/x" = some "x"
    ∧ ("x" : String) ≠ "root/x" := by
  decide

/-- Claim C2 (amended): provided no path contains the literal id `"root"`
among its accumulated prefix ids (equivalently, no path's first non-blank
segment is `root`), the builder's node ids are pairwise distinct, no two
children of the same parent share a name (two edges from the same parent
whose target names agree have the same target), and re-processing a path
already in the input changes nothing (the existing nodes are reused, no
duplicates are created). -/
theorem claim_C2 (rng : Nat → LeafMeta) (paths : List String)
    (h : ∀ p ∈ paths, "root" ∉ pathIds (pySplit '/' p) "") :
    ((build_hierarchy rng paths).nodes.map (fun p => p.1)).Nodup
    ∧ (∀ e1 ∈ (build_hierarchy rng paths).edges, ∀ e2 ∈ (build_hierarchy rng paths).edges,
        e1.1 = e2.1 →
        lookupName (build_hierarchy rng paths) e1.2 =
          lookupName (build_hierarchy rng paths) e2.2 →
        e1.2 = e2.2)
    ∧ ∀ p ∈ paths, build_hierarchy rng (paths ++ [p]) = build_hierarchy rng paths := by
  obtain ⟨hnd, hes⟩ := build_inv rng paths h
  refine ⟨hnd, ?_, fun p hp => build_reinsert rng paths p hp⟩
  intro e1 h1 e2 h2 heq hname
  obtain ⟨nm1, hl1, hd1⟩ := hes e1 h1
  obtain ⟨nm2, hl2, hd2⟩ := hes e2 h2
  rw [hl1, hl2] at hname
  have hnm : nm1 = nm2 := Option.some.inj hname
  rcases hd1 with ⟨hr1, he1⟩ | ⟨hr1, he1⟩ <;> rcases hd2 with ⟨hr2, he2⟩ | ⟨hr2, he2⟩
  · rw [he1, he2, hnm]
  · exact absurd (heq ▸ hr1) hr2
  · exact absurd (heq.symm ▸ hr2) hr1
  · rw [he1, he2, hnm, heq]

/-- Claim C2 witness: the amended claim at the concrete input
`["a/b", "a/c"]` (no `root` segment): ids are distinct and re-processing
`"a/c"` leaves the graph unchanged. -/
theorem claim_C2_w :
    ((build_hierarchy rngA ["a/b", "a/c"]).nodes.map (fun p => p.1)).Nodup
    ∧ build_hierarchy rngA (["a/b", "a/c"] ++ ["a/c"]) = build_hierarchy rngA ["a/b", "a/c"] :=
  ⟨(claim_C2 rngA ["a/b", "a/c"] (by decide)).1,
   (claim_C2 rngA ["a/b", "a/c"] (by decide)).2.2 "a/c" (by decide)⟩

/-! ## Projection lemmas: visibility structure (C1, C4, C5) -/

theorem mem_addVisibleNodes (coll : Finset String) (i : String) (a : NodeAttrs)
    (cs : List FTree) (x : String) :
    x ∈ addVisibleNodes coll (.node i a cs) ↔
      (i ∉ coll ∧ ∃ c ∈ cs, x = c.rootId ∨ x ∈ addVisibleNodes coll c) := by
  rw [addVisibleNodes_eq]
  by_cases h : i ∈ coll
  · simp [h]
  · simp only [h, if_false, not_false_iff, true_and, List.mem_flatten, List.mem_map]
    constructor
    · rintro ⟨l, ⟨c, hc, rfl⟩, hx⟩
      rcases List.mem_cons.mp hx with hx | hx
      · exact ⟨c, hc, Or.inl hx⟩
      · exact ⟨c, hc, Or.inr hx⟩
    · rintro ⟨c, hc, hx | hx⟩
      · exact ⟨c.rootId :: addVisibleNodes coll c, ⟨c, hc, rfl⟩, by simp [hx]⟩
      · exact ⟨c.rootId :: addVisibleNodes coll c, ⟨c, hc, rfl⟩, by simp [hx]⟩

theorem mem_addVisibleEdges (coll : Finset String) (i : String) (a : NodeAttrs)
    (cs : List FTree) (u v : String) :
    (u, v) ∈ addVisibleEdges coll (.node i a cs) ↔
      (i ∉ coll ∧ ∃ c ∈ cs, (u = i ∧ v = c.rootId) ∨ (u, v) ∈ addVisibleEdges coll c) := by
  rw [addVisibleEdges_eq]
  by_cases h : i ∈ coll
  · simp [h]
  · simp only [h, if_false, not_false_iff, true_and, List.mem_flatten, List.mem_map]
    constructor
    · rintro ⟨l, ⟨c, hc, rfl⟩, hx⟩
      rcases List.mem_cons.mp hx with hx | hx
      · exact ⟨c, hc, Or.inl (by simpa using Prod.mk.inj hx)⟩
      · exact ⟨c, hc, Or.inr hx⟩
    · rintro ⟨c, hc, ⟨rfl, rfl⟩ | hx⟩
      · exact ⟨(u, c.rootId) :: addVisibleEdges coll c, ⟨c, hc, rfl⟩, by simp⟩
      · exact ⟨(i, c.rootId) :: addVisibleEdges coll c, ⟨c, hc, rfl⟩, by simp [hx]⟩

theorem mem_subtreesOf (i : String) (a : NodeAttrs) (cs : List FTree) (s : FTree) :
    s ∈ subtreesOf (.node i a cs) ↔
      (s = FTree.node i a cs ∨ ∃ c ∈ cs, s ∈ subtreesOf c) := by
  rw [subtreesOf_eq]
  simp only [List.mem_cons, List.mem_flatten, List.mem_map]
  constructor
  · rintro (rfl | ⟨l, ⟨c, hc, rfl⟩, hs⟩)
    · exact Or.inl rfl
    · exact Or.inr ⟨c, hc, hs⟩
  · rintro (rfl | ⟨c, hc, hs⟩)
    · exact Or.inl rfl
    · exact Or.inr ⟨subtreesOf c, ⟨c, hc, rfl⟩, hs⟩

theorem self_mem_subtreesOf (t : FTree) : t ∈ subtreesOf t := by
  cases t with
  | node i a cs => rw [subtreesOf_eq]; exact List.mem_cons_self _ _

theorem child_mem_subtreesOf (t c : FTree) (hc : c ∈ t.children) : c ∈ subtreesOf t := by
  cases t with
  | node i a cs =>
    rw [mem_subtreesOf]
    exact Or.inr ⟨c, hc, self_mem_subtreesOf c⟩

theorem rootId_mem_allIds (t : FTree) : t.rootId ∈ allIds t := by
  cases t with
  | node i a cs => rw [allIds_eq]; exact List.mem_cons_self _ _

theorem allIds_subset_of_mem_children (cs : List FTree) (c : FTree) (hc : c ∈ cs)
    (i : String) (a : NodeAttrs) :
    ∀ x ∈ allIds c, x ∈ allIds (FTree.node i a cs) := by
  intro x hx
  rw [allIds_eq]
  right
  exact List.mem_flatten.mpr ⟨allIds c, List.mem_map.mpr ⟨c, hc, rfl⟩, hx⟩

theorem allIds_subset_of_subtree : ∀ (t s : FTree), s ∈ subtreesOf t →
    ∀ x ∈ allIds s, x ∈ allIds t := by
  intro t
  induction t using FTree.strongInd with
  | h i a cs ih =>
    intro s hs x hx
    rcases (mem_subtreesOf i a cs s).mp hs with rfl | ⟨c, hc, hsc⟩
    · exact hx
    · exact allIds_subset_of_mem_children cs c hc i a x (ih c hc s hsc x hx)

theorem rootId_mem_of_subtree (t s : FTree) (hs : s ∈ subtreesOf t) :
    s.rootId ∈ allIds t :=
  allIds_subset_of_subtree t s hs s.rootId (rootId_mem_allIds s)

theorem addVisibleNodes_subset : ∀ (t : FTree) (coll : Finset String) (x : String),
    x ∈ addVisibleNodes coll t → x ∈ (t.children.map allIds).flatten := by
  intro t
  induction t using FTree.strongInd with
  | h i a cs ih =>
    intro coll x hx
    rcases (mem_addVisibleNodes coll i a cs x).mp hx with ⟨_, c, hc, hx | hx⟩
    · rw [List.mem_flatten]
      exact ⟨allIds c, List.mem_map.mpr ⟨c, hc, rfl⟩, hx ▸ rootId_mem_allIds c⟩
    · rw [List.mem_flatten]
      refine ⟨allIds c, List.mem_map.mpr ⟨c, hc, rfl⟩, ?_⟩
      have := ih c hc coll x hx
      cases c with
      | node j b ds =>
        rw [allIds_eq]
        right
        exact this

theorem visibleNodes_subset_allIds (t : FTree) (coll : Finset String) (x : String)
    (hx : x ∈ visibleNodes coll t) : x ∈ allIds t := by
  rcases List.mem_cons.mp hx with rfl | hx
  · exact rootId_mem_allIds t
  · have := addVisibleNodes_subset t coll x hx
    cases t with
    | node i a cs =>
      rw [allIds_eq]
      right
      exact this

theorem addVisibleNodes_sub_allIds (t : FTree) (coll : Finset String) (x : String)
    (hx : x ∈ addVisibleNodes coll t) : x ∈ allIds t :=
  visibleNodes_subset_allIds t coll x (List.mem_cons_of_mem _ hx)

theorem childrenIds_sub_allIds (s : FTree) (d : String)
    (hd : d ∈ (s.children.map allIds).flatten) : d ∈ allIds s := by
  cases s with
  | node i a cs =>
    rw [allIds_eq]
    exact List.mem_cons_of_mem _ hd

theorem rootId_child_mem_allIds (s c : FTree) (hc : c ∈ s.children) :
    c.rootId ∈ allIds s := by
  cases s with
  | node i a cs => exact allIds_subset_of_mem_children cs c hc i a _ (rootId_mem_allIds c)

theorem nodup_parts (i : String) (a : NodeAttrs) (cs : List FTree)
    (hnd : (allIds (FTree.node i a cs)).Nodup) :
    i ∉ (cs.map allIds).flatten
    ∧ ((cs.map allIds).flatten).Nodup
    ∧ ∀ c ∈ cs, (allIds c).Nodup := by
  rw [allIds_eq, List.nodup_cons] at hnd
  refine ⟨hnd.1, hnd.2, ?_⟩
  intro c hc
  exact (List.nodup_flatten.mp hnd.2).1 (allIds c) (List.mem_map.mpr ⟨c, hc, rfl⟩)

theorem sibling_disjoint (cs : List FTree) (hf : ((cs.map allIds).flatten).Nodup) :
    ∀ c1 ∈ cs, ∀ c2 ∈ cs, ∀ x, x ∈ allIds c1 → x ∈ allIds c2 → c1 = c2 := by
  induction cs with
  | nil => intro c1 hc1; exact absurd hc1 (List.not_mem_nil c1)
  | cons c cs ih =>
    simp only [List.map_cons, List.flatten_cons, List.nodup_append] at hf
    obtain ⟨h1, h2, h3⟩ := hf
    intro c1 hc1 c2 hc2 x hx1 hx2
    rcases List.mem_cons.mp hc1 with he1 | hc1 <;> rcases List.mem_cons.mp hc2 with he2 | hc2
    · rw [he1, he2]
    · exact absurd (List.mem_flatten.mpr ⟨allIds c2, List.mem_map.mpr ⟨c2, hc2, rfl⟩, hx2⟩)
        (h3 (he1 ▸ hx1))
    · exact absurd (List.mem_flatten.mpr ⟨allIds c1, List.mem_map.mpr ⟨c1, hc1, rfl⟩, hx1⟩)
        (h3 (he2 ▸ hx2))
    · exact ih h2 c1 hc1 c2 hc2 x hx1 hx2

theorem subtree_unique : ∀ (t : FTree), (allIds t).Nodup →
    ∀ s1 s2, s1 ∈ subtreesOf t → s2 ∈ subtreesOf t → s1.rootId = s2.rootId → s1 = s2 := by
  intro t
  induction t using FTree.strongInd with
  | h i a cs ih =>
    intro hnd s1 s2 hs1 hs2 heq
    obtain ⟨hni, hnf, hnc⟩ := nodup_parts i a cs hnd
    rcases (mem_subtreesOf i a cs s1).mp hs1 with rfl | ⟨c1, hc1, hsc1⟩ <;>
      rcases (mem_subtreesOf i a cs s2).mp hs2 with rfl | ⟨c2, hc2, hsc2⟩
    · rfl
    · have h2 : s2.rootId ∈ allIds c2 := rootId_mem_of_subtree c2 s2 hsc2
      have heq2 : i = s2.rootId := heq
      have : i ∈ (cs.map allIds).flatten := by
        rw [heq2]
        exact List.mem_flatten.mpr ⟨allIds c2, List.mem_map.mpr ⟨c2, hc2, rfl⟩, h2⟩
      exact absurd this hni
    · have h1 : s1.rootId ∈ allIds c1 := rootId_mem_of_subtree c1 s1 hsc1
      have heq2 : s1.rootId = i := heq
      have : i ∈ (cs.map allIds).flatten := by
        rw [← heq2]
        exact List.mem_flatten.mpr ⟨allIds c1, List.mem_map.mpr ⟨c1, hc1, rfl⟩, h1⟩
      exact absurd this hni
    · have h1 : s1.rootId ∈ allIds c1 := rootId_mem_of_subtree c1 s1 hsc1
      have h2 : s2.rootId ∈ allIds c2 := rootId_mem_of_subtree c2 s2 hsc2
      have hcc : c1 = c2 := sibling_disjoint cs hnf c1 hc1 c2 hc2 s1.rootId h1 (heq ▸ h2)
      subst hcc
      exact ih c1 hc1 (hnc c1 hc1) s1 s2 hsc1 hsc2 heq

theorem mem_visibleNodes_child (coll : Finset String) (i : String) (a : NodeAttrs)
    (cs : List FTree) (hnd : (allIds (FTree.node i a cs)).Nodup)
    (c : FTree) (hc : c ∈ cs) (x : String) (hx : x ∈ allIds c) :
    x ∈ visibleNodes coll (.node i a cs) ↔ (i ∉ coll ∧ x ∈ visibleNodes coll c) := by
  obtain ⟨hni, hnf, hnc⟩ := nodup_parts i a cs hnd
  have hxf : x ∈ (cs.map allIds).flatten :=
    List.mem_flatten.mpr ⟨allIds c, List.mem_map.mpr ⟨c, hc, rfl⟩, hx⟩
  have hxne : x ≠ i := fun h => hni (h ▸ hxf)
  constructor
  · intro hv
    rcases List.mem_cons.mp hv with rfl | hv
    · exact absurd rfl hxne
    · obtain ⟨hic, c2, hc2, hx2⟩ := (mem_addVisibleNodes coll i a cs x).mp hv
      have hxc2 : x ∈ allIds c2 := by
        rcases hx2 with rfl | hx2
        · exact rootId_mem_allIds c2
        · exact addVisibleNodes_sub_allIds c2 coll x hx2
      have : c2 = c := sibling_disjoint cs hnf c2 hc2 c hc x hxc2 hx
      subst this
      refine ⟨hic, ?_⟩
      rcases hx2 with rfl | hx2
      · exact List.mem_cons_self _ _
      · exact List.mem_cons_of_mem _ hx2
  · rintro ⟨hic, hv⟩
    apply List.mem_cons_of_mem
    apply (mem_addVisibleNodes coll i a cs x).mpr
    refine ⟨hic, c, hc, ?_⟩
    rcases List.mem_cons.mp hv with rfl | hv
    · exact Or.inl rfl
    · exact Or.inr hv

theorem addVisibleEdges_target : ∀ (t : FTree) (coll : Finset String) (u v : String),
    (u, v) ∈ addVisibleEdges coll t → v ∈ addVisibleNodes coll t := by
  intro t
  induction t using FTree.strongInd with
  | h i a cs ih =>
    intro coll u v he
    obtain ⟨hic, c, hc, hx⟩ := (mem_addVisibleEdges coll i a cs u v).mp he
    apply (mem_addVisibleNodes coll i a cs v).mpr
    rcases hx with ⟨rfl, rfl⟩ | hx
    · exact ⟨hic, c, hc, Or.inl rfl⟩
    · exact ⟨hic, c, hc, Or.inr (ih c hc coll u v hx)⟩

theorem addVisibleEdges_source_visible : ∀ (t : FTree) (coll : Finset String) (u v : String),
    (u, v) ∈ addVisibleEdges coll t → u ∈ visibleNodes coll t := by
  intro t
  induction t using FTree.strongInd with
  | h i a cs ih =>
    intro coll u v he
    obtain ⟨hic, c, hc, hx⟩ := (mem_addVisibleEdges coll i a cs u v).mp he
    rcases hx with ⟨rfl, rfl⟩ | hx
    · exact List.mem_cons_self _ _
    · have := ih c hc coll u v hx
      rcases List.mem_cons.mp this with rfl | hm
      · exact List.mem_cons_of_mem _
          ((mem_addVisibleNodes coll i a cs _).mpr ⟨hic, c, hc, Or.inl rfl⟩)
      · exact List.mem_cons_of_mem _
          ((mem_addVisibleNodes coll i a cs _).mpr ⟨hic, c, hc, Or.inr hm⟩)

theorem addVisibleEdges_source_not_collapsed :
    ∀ (t : FTree) (coll : Finset String) (u v : String),
      (u, v) ∈ addVisibleEdges coll t → u ∉ coll := by
  intro t
  induction t using FTree.strongInd with
  | h i a cs ih =>
    intro coll u v he
    obtain ⟨hic, c, hc, hx⟩ := (mem_addVisibleEdges coll i a cs u v).mp he
    rcases hx with ⟨rfl, rfl⟩ | hx
    · exact hic
    · exact ih c hc coll u v hx

theorem addVisibleEdges_structure : ∀ (t : FTree) (coll : Finset String) (u v : String),
    (u, v) ∈ addVisibleEdges coll t →
    ∃ s ∈ subtreesOf t, u = s.rootId ∧ ∃ c ∈ s.children, v = c.rootId := by
  intro t
  induction t using FTree.strongInd with
  | h i a cs ih =>
    intro coll u v he
    obtain ⟨hic, c, hc, hx⟩ := (mem_addVisibleEdges coll i a cs u v).mp he
    rcases hx with ⟨rfl, rfl⟩ | hx
    · exact ⟨FTree.node u a cs, self_mem_subtreesOf _, rfl, c, hc, rfl⟩
    · obtain ⟨s, hs, hu, c2, hc2, hv⟩ := ih c hc coll u v hx
      exact ⟨s, (mem_subtreesOf i a cs s).mpr (Or.inr ⟨c, hc, hs⟩), hu, c2, hc2, hv⟩

theorem mem_addVisibleEdges_child (coll : Finset String) (i : String) (a : NodeAttrs)
    (cs : List FTree) (hnd : (allIds (FTree.node i a cs)).Nodup)
    (c : FTree) (hc : c ∈ cs) (u v : String) (hv : v ∈ allIds c) :
    (u, v) ∈ addVisibleEdges coll (.node i a cs) ↔
      (i ∉ coll ∧ ((u = i ∧ v = c.rootId) ∨ (u, v) ∈ addVisibleEdges coll c)) := by
  obtain ⟨hni, hnf, hnc⟩ := nodup_parts i a cs hnd
  rw [mem_addVisibleEdges]
  constructor
  · rintro ⟨hic, c2, hc2, hx⟩
    refine ⟨hic, ?_⟩
    have hvc2 : v ∈ allIds c2 := by
      rcases hx with ⟨_, rfl⟩ | hx
      · exact rootId_mem_allIds c2
      · exact addVisibleNodes_sub_allIds c2 coll v (addVisibleEdges_target c2 coll u v hx)
    have : c2 = c := sibling_disjoint cs hnf c2 hc2 c hc v hvc2 hv
    subst this
    exact hx
  · rintro ⟨hic, hx⟩
    exact ⟨hic, c, hc, hx⟩

theorem visible_child_iff : ∀ (t : FTree) (coll : Finset String), (allIds t).Nodup →
    ∀ s ∈ subtreesOf t, s.rootId ∈ visibleNodes coll t →
    ∀ c ∈ s.children,
      ((c.rootId ∈ visibleNodes coll t) ↔ s.rootId ∉ coll)
      ∧ (((s.rootId, c.rootId) ∈ addVisibleEdges coll t) ↔ s.rootId ∉ coll) := by
  intro t
  induction t using FTree.strongInd with
  | h i a cs ih =>
    intro coll hnd s hs hvis c hc
    obtain ⟨hni, hnf, hnc⟩ := nodup_parts i a cs hnd
    rcases (mem_subtreesOf i a cs s).mp hs with rfl | ⟨c0, hc0, hs0⟩
    · have hcr : c.rootId ∈ (cs.map allIds).flatten :=
        List.mem_flatten.mpr ⟨allIds c, List.mem_map.mpr ⟨c, hc, rfl⟩, rootId_mem_allIds c⟩
      constructor
      · constructor
        · intro hcv
          rcases List.mem_cons.mp hcv with he | hm
          · have he2 : c.rootId = i := he
            exact absurd (he2 ▸ hcr) hni
          · exact ((mem_addVisibleNodes coll i a cs _).mp hm).1
        · intro hnc2
          exact List.mem_cons_of_mem _
            ((mem_addVisibleNodes coll i a cs _).mpr ⟨hnc2, c, hc, Or.inl rfl⟩)
      · constructor
        · intro hev
          exact ((mem_addVisibleEdges coll i a cs _ _).mp hev).1
        · intro hnc2
          exact (mem_addVisibleEdges coll i a cs _ _).mpr ⟨hnc2, c, hc, Or.inl ⟨rfl, rfl⟩⟩
    · have hnd0 := hnc c0 hc0
      have hsr : s.rootId ∈ allIds c0 := rootId_mem_of_subtree c0 s hs0
      have hv0 := (mem_visibleNodes_child coll i a cs hnd c0 hc0 _ hsr).mp hvis
      have hcr0 : c.rootId ∈ allIds c0 :=
        allIds_subset_of_subtree c0 s hs0 _ (rootId_child_mem_allIds s c hc)
      have hiff := ih c0 hc0 coll hnd0 s hs0 hv0.2 c hc
      constructor
      · rw [mem_visibleNodes_child coll i a cs hnd c0 hc0 _ hcr0]
        constructor
        · rintro ⟨_, h2⟩
          exact hiff.1.mp h2
        · intro hns
          exact ⟨hv0.1, hiff.1.mpr hns⟩
      · rw [mem_addVisibleEdges_child coll i a cs hnd c0 hc0 _ _ hcr0]
        constructor
        · rintro ⟨_, ⟨he1, he2⟩ | h2⟩
          · exact absurd (List.mem_flatten.mpr
              ⟨allIds c0, List.mem_map.mpr ⟨c0, hc0, rfl⟩, he1 ▸ hsr⟩) hni
          · exact hiff.2.mp h2
        · intro hns
          exact ⟨hv0.1, Or.inr (hiff.2.mpr hns)⟩

theorem collapsed_subtree_hidden : ∀ (t : FTree) (coll : Finset String),
    (allIds t).Nodup → ∀ s ∈ subtreesOf t, s.rootId ∈ coll →
    ∀ d ∈ (s.children.map allIds).flatten, d ∉ visibleNodes coll t := by
  intro t
  induction t using FTree.strongInd with
  | h i a cs ih =>
    intro coll hnd s hs hcoll d hd
    obtain ⟨hni, hnf, hnc⟩ := nodup_parts i a cs hnd
    rcases (mem_subtreesOf i a cs s).mp hs with rfl | ⟨c0, hc0, hs0⟩
    · intro hdv
      rcases List.mem_cons.mp hdv with he | hm
      · have he2 : d = i := he
        exact hni (he2 ▸ hd)
      · exact ((mem_addVisibleNodes coll i a cs d).mp hm).1 hcoll
    · have hda : d ∈ allIds c0 :=
        allIds_subset_of_subtree c0 s hs0 d (childrenIds_sub_allIds s d hd)
      intro hdv
      have hmem := (mem_visibleNodes_child coll i a cs hnd c0 hc0 d hda).mp hdv
      exact ih c0 hc0 coll (hnc c0 hc0) s hs0 hcoll d hd hmem.2

theorem visibility_congr : ∀ (t : FTree) (c1 c2 : Finset String),
    (∀ x ∈ allIds t, (x ∈ c1 ↔ x ∈ c2)) →
    addVisibleNodes c1 t = addVisibleNodes c2 t
    ∧ addVisibleEdges c1 t = addVisibleEdges c2 t := by
  intro t
  induction t using FTree.strongInd with
  | h i a cs ih =>
    intro c1 c2 h
    have hi : i ∈ c1 ↔ i ∈ c2 := h i (by rw [allIds_eq]; exact List.mem_cons_self _ _)
    have hrec : ∀ c ∈ cs, addVisibleNodes c1 c = addVisibleNodes c2 c
        ∧ addVisibleEdges c1 c = addVisibleEdges c2 c := by
      intro c hc
      apply ih c hc
      intro x hx
      exact h x (allIds_subset_of_mem_children cs c hc i a x hx)
    rw [addVisibleNodes_eq, addVisibleNodes_eq, addVisibleEdges_eq, addVisibleEdges_eq]
    by_cases hic : i ∈ c1
    · have hic2 := hi.mp hic
      constructor
      · rw [if_pos hic, if_pos hic2]
      · rw [if_pos hic, if_pos hic2]
    · have hic2 : i ∉ c2 := fun hh => hic (hi.mpr hh)
      constructor
      · rw [if_neg hic, if_neg hic2]
        congr 1
        apply List.map_congr_left
        intro c hc
        rw [(hrec c hc).1]
      · rw [if_neg hic, if_neg hic2]
        congr 1
        apply List.map_congr_left
        intro c hc
        rw [(hrec c hc).2]

theorem nodeInfos_congr (t : FTree) (c1 c2 : Finset String) (sel : Option String)
    (h : ∀ x ∈ allIds t, (x ∈ c1 ↔ x ∈ c2)) :
    nodeInfos t c1 sel = nodeInfos t c2 sel := by
  obtain ⟨hn, he⟩ := visibility_congr t c1 c2 h
  unfold nodeInfos visibleNodes
  rw [hn, he]
  apply List.filterMap_congr
  intro n hmem
  have hna : n ∈ allIds t :=
    visibleNodes_subset_allIds t c2 n hmem
  unfold mkInfo
  have hd : decide (n ∈ c1) = decide (n ∈ c2) := decide_eq_decide.mpr (h n hna)
  rw [hd]

/-- Claim C1: in the projection of any tree (with distinct node ids) under
any collapsed set, the root is always visible; for every visible node,
each child is visible, and the corresponding edge present, exactly when
the node is not collapsed; and the entire subtree below a collapsed node
is omitted from both the visible node list and the visible edge list. -/
theorem claim_C1 (t : FTree) (coll : Finset String) (hnd : (allIds t).Nodup) :
    t.rootId ∈ visibleNodes coll t
    ∧ (∀ s ∈ subtreesOf t, s.rootId ∈ visibleNodes coll t → ∀ c ∈ s.children,
        ((c.rootId ∈ visibleNodes coll t) ↔ s.rootId ∉ coll)
        ∧ (((s.rootId, c.rootId) ∈ visibleEdges coll t) ↔ s.rootId ∉ coll))
    ∧ (∀ s ∈ subtreesOf t, s.rootId ∈ coll →
        ∀ d ∈ (s.children.map allIds).flatten,
          d ∉ visibleNodes coll t
          ∧ ∀ e ∈ visibleEdges coll t, e.1 ≠ d ∧ e.2 ≠ d) := by
  refine ⟨List.mem_cons_self _ _, ?_, ?_⟩
  · intro s hs hv c hc
    exact visible_child_iff t coll hnd s hs hv c hc
  · intro s hs hcoll d hd
    have hdn := collapsed_subtree_hidden t coll hnd s hs hcoll d hd
    refine ⟨hdn, ?_⟩
    intro e he
    obtain ⟨u, v⟩ := e
    refine ⟨fun h1 => ?_, fun h2 => ?_⟩
    · exact hdn (h1 ▸ addVisibleEdges_source_visible t coll u v he)
    · exact hdn (h2 ▸ List.mem_cons_of_mem _ (addVisibleEdges_target t coll u v he))

/-- Claim C1 witness: the concrete tree `t0` with `A` collapsed — its ids
are distinct, and the root is visible in the projection. -/
theorem claim_C1_w : t0.rootId ∈ visibleNodes {"A"} t0 :=
  (claim_C1 t0 {"A"} (by simp [t0])).1

/-- Claim C4 counterexample: in `t0` with `A` collapsed, the `node_info`
entry for the visible node `A` reports `has_children = false`, although
`A` has a child (`A/B`) in the full tree: `has_children` is computed from
the projected graph's successors, not the full tree's. -/
theorem claim_C4_cex :
    ∃ info ∈ nodeInfos t0 {"A"} none, info.id = "A" ∧ info.has_children = false
      ∧ ∃ s ∈ subtreesOf t0, s.rootId = "A" ∧ s.children ≠ [] := by
  simp [nodeInfos, visibleNodes, visibleEdges, mkInfo, findSubtree, t0, rootAttrs,
    innerAttrs, leafAttrs, rngA, FTree.rootId, FTree.getAttrs, FTree.children]

/-- Claim C4 (amended): for a tree with distinct ids, a visible node's
`has_children` flag is true exactly when the node is not collapsed and
has at least one child in the full tree — so it does depend on the
collapse state, reporting false for a collapsed node. -/
theorem claim_C4 (t : FTree) (coll : Finset String) (sel : Option String)
    (hnd : (allIds t).Nodup) :
    ∀ info ∈ nodeInfos t coll sel, ∀ s ∈ subtreesOf t, s.rootId = info.id →
      (info.has_children = true ↔ (s.rootId ∉ coll ∧ s.children ≠ [])) := by
  intro info hinfo s hs hid
  obtain ⟨n, hn, hmk⟩ := List.mem_filterMap.mp hinfo
  unfold mkInfo at hmk
  cases hfind : findSubtree t n with
  | none =>
    rw [hfind] at hmk
    exact absurd hmk (by simp)
  | some s2 =>
    rw [hfind, Option.map_some'] at hmk
    have hhc : info.has_children = (addVisibleEdges coll t).any (fun e => e.1 = n) := by
      rw [← Option.some.inj hmk]
    have hid3 : info.id = n := by
      rw [← Option.some.inj hmk]
    have hsn : s.rootId = n := hid.trans hid3
    rw [hhc, ← hsn]
    rw [← hsn] at hn
    constructor
    · intro hany
      obtain ⟨e, he, hdec⟩ := List.any_eq_true.mp hany
      have he1 : e.1 = s.rootId := of_decide_eq_true hdec
      obtain ⟨u, v⟩ := e
      constructor
      · have hu := addVisibleEdges_source_not_collapsed t coll u v he
        have he2 : u = s.rootId := he1
        exact he2 ▸ hu
      · obtain ⟨s3, hs3, hu3, c3, hc3, hv3⟩ := addVisibleEdges_structure t coll u v he
        have heq : s3 = s := subtree_unique t hnd s3 s hs3 hs (by rw [← hu3]; exact he1)
        subst heq
        intro hempty
        rw [hempty] at hc3
        exact absurd hc3 (List.not_mem_nil c3)
    · rintro ⟨hnc, hne⟩
      obtain ⟨c, hc⟩ := List.exists_mem_of_ne_nil s.children hne
      have hedge := (visible_child_iff t coll hnd s hs hn c hc).2.mpr hnc
      apply List.any_eq_true.mpr
      exact ⟨(s.rootId, c.rootId), hedge, by simp⟩

/-- Claim C4 witness: the amended claim at `t0` with nothing collapsed:
the root's info entry reports `has_children = true` because the root is
not collapsed and has children. -/
theorem claim_C4_w :
    (NodeInfo.mk "root" "Root" 0 "N/A" "N/A" "N/A" "N/A" false false true).has_children = true
      ↔ (t0.rootId ∉ (∅ : Finset String) ∧ t0.children ≠ []) :=
  claim_C4 t0 ∅ none (by simp [t0])
    (NodeInfo.mk "root" "Root" 0 "N/A" "N/A" "N/A" "N/A" false false true)
    (by simp [nodeInfos, visibleNodes, visibleEdges, mkInfo, findSubtree, t0, rootAttrs,
      innerAttrs, leafAttrs, rngA, FTree.rootId, FTree.getAttrs, FTree.children])
    t0 (self_mem_subtreesOf t0) rfl

/-- Claim C5 counterexample: projecting `t0` with the unknown selected id
`"zzz"` does not fail at all — the projector returns a successful result
even though the selected id matches no node in the tree. -/
theorem claim_C5_cex :
    (∃ out, visualize_tree_plotly t0 ∅ (some "zzz") = Except.ok out)
    ∧ "zzz" ∉ allIds t0 := by
  refine ⟨⟨_, rfl⟩, ?_⟩
  simp [t0]

/-- Claim C5 (amended): the projector never fails: an unknown selected id
is silently ignored (the result is returned and no node is marked
selected), and collapsed-set entries that match no node id are ignored —
the output only depends on the collapsed ids that occur in the tree. -/
theorem claim_C5 (t : FTree) (coll : Finset String) (sel : Option String) :
    (∃ out, visualize_tree_plotly t coll sel = Except.ok out)
    ∧ visualize_tree_plotly t coll sel =
        visualize_tree_plotly t (coll.filter (fun i => i ∈ allIds t)) sel
    ∧ (∀ x, sel = some x → x ∉ allIds t →
        ∀ info ∈ nodeInfos t coll sel, info.is_selected = false) := by
  have hagree : ∀ x ∈ allIds t,
      (x ∈ coll ↔ x ∈ coll.filter (fun i => i ∈ allIds t)) := by
    intro x hx
    simp [Finset.mem_filter, hx]
  refine ⟨⟨_, rfl⟩, ?_, ?_⟩
  · unfold visualize_tree_plotly
    obtain ⟨hvn, hve⟩ := visibility_congr t coll _ hagree
    rw [nodeInfos_congr t coll _ sel hagree]
    unfold visibleNodes visibleEdges
    rw [hvn, hve]
  · rintro x rfl hxa info hinfo
    obtain ⟨n, hn, hmk⟩ := List.mem_filterMap.mp hinfo
    have hna : n ∈ allIds t := visibleNodes_subset_allIds t coll n hn
    unfold mkInfo at hmk
    cases hfind : findSubtree t n with
    | none =>
      rw [hfind] at hmk
      exact absurd hmk (by simp)
    | some s2 =>
      rw [hfind, Option.map_some'] at hmk
      have hsel : info.is_selected = decide ((some x : Option String) = some n) := by
        rw [← Option.some.inj hmk]
      rw [hsel]
      apply decide_eq_false
      intro hcontra
      exact hxa (Option.some.inj hcontra ▸ hna)

/-- Claim C5 witness: the amended claim at `t0` with a stale collapsed id
and an unknown selected id: the projection succeeds and marks no node as
selected. -/
theorem claim_C5_w :
    (∃ out, visualize_tree_plotly t0 {"A"} (some "zzz") = Except.ok out)
    ∧ ∀ info ∈ nodeInfos t0 {"A"} (some "zzz"), info.is_selected = false :=
  ⟨(claim_C5 t0 {"A"} (some "zzz")).1,
   (claim_C5 t0 {"A"} (some "zzz")).2.2 "zzz" rfl (by simp [t0])⟩
